import Mathlib

/-!
Verification of the tag subsystem of the Galaxery image-sharing server
(`server.js`, client helper `public/js/main.js`).

The JavaScript code is shallowly embedded: the SQLite tables become lists
inside a `DB` record, the promisified SQL statements become pure functions
on `DB`, and the route handlers become functions from `DB` and request
parameters to results (and updated `DB` for writes).  Strings are modelled
over their character lists; case folding is the ASCII folding SQLite and
`toLowerCase` perform on ASCII data (the tags in this application are
ASCII hashtags).  `ORDER BY` is modelled as a stable insertion sort on the
listed key, ties keeping table order; SQLite leaves tie order unspecified,
so every ordering fact proved below only uses the listed keys.
-/

/-- ASCII whitespace recognised by the model of the JS regex `\s`
(the application only ever splits hashtag text, which is ASCII). -/
def isWs (c : Char) : Bool :=
  c = ' ' || c = '\t' || c = '\n' || c = '\r'

/-- ASCII case folding: what `String.prototype.toLowerCase` and SQLite
`LIKE` do on ASCII characters. -/
def foldCase (c : Char) : Char :=
  if 'A' ≤ c && c ≤ 'Z' then Char.ofNat (c.toNat + 32) else c

/-- Model of `s.toLowerCase()` on ASCII data. -/
def asciiLower (s : String) : String :=
  ⟨s.data.map foldCase⟩

/-- Model of `s.trim()`: drop leading and trailing whitespace. -/
def trimWs (s : String) : String :=
  ⟨((s.data.dropWhile fun c => isWs c).reverse.dropWhile fun c => isWs c).reverse⟩

/-- Word accumulator for `words`: `acc` holds the characters of the word
currently being read, in reverse. -/
def wordsAux : List Char → List Char → List (List Char)
  | [], acc => if acc = [] then [] else [acc.reverse]
  | c :: cs, acc =>
    if isWs c then
      if acc = [] then wordsAux cs [] else acc.reverse :: wordsAux cs []
    else wordsAux cs (c :: acc)

/-- Maximal non-whitespace runs of a character list: the non-empty tokens
produced by `s.split(/\s+/)`.  (The JS split can additionally yield empty
edge tokens when the string starts or ends with whitespace; every use in
the source filters those out immediately — `parseTags` keeps only tokens
starting with `#`, and `main.js` splits a trimmed string — so they are
dropped here.) -/
def words (l : List Char) : List (List Char) :=
  wordsAux l []

/-- Model of `text.split(/\s+/)` as used in the source (see `words`). -/
def splitWs (s : String) : List String :=
  (words s.data).map fun cs => ⟨cs⟩

/-- `true` iff the string starts with the marker character:
model of `t.startsWith('#')`. -/
def startsHash (s : String) : Bool :=
  match s.data with
  | [] => false
  | c :: _ => decide (c = '#')

/-- `true` iff `pre` is an initial segment of `s` (plain starts-with). -/
def strStartsWith (s pre : String) : Bool :=
  decide (s.data.take pre.data.length = pre.data)

/-- Model of `t.replace(/^#+/, '#')`: a leading run of `#` collapses to a
single `#`; a string not starting with `#` is unchanged. -/
def collapseHash (s : String) : String :=
  match s.data with
  | '#' :: rest => ⟨'#' :: rest.dropWhile (fun c => c = '#')⟩
  | _ => s

/-- Accumulator for `dedupFirst`: `seen` holds elements already emitted. -/
def dedupAux {α : Type} [DecidableEq α] : List α → List α → List α
  | _, [] => []
  | seen, x :: xs =>
    if x ∈ seen then dedupAux seen xs else x :: dedupAux (x :: seen) xs

/-- Duplicate removal keeping the first occurrence, the behaviour of
`Array.from(new Set(tokens))` in JS. -/
def dedupFirst {α : Type} [DecidableEq α] (l : List α) : List α :=
  dedupAux [] l

/-- `parseTags` from `server.js`: split on whitespace, trim each token,
keep tokens starting with `#`, collapse the leading marker run to one `#`
and lower-case, then remove duplicates (first occurrence wins). -/
def parseTags (text : String) : List String :=
  if text = "" then []
  else
    dedupFirst
      ((((splitWs text).map trimWs).filter (fun t => startsHash t)).map
        (fun t => asciiLower (collapseHash t)))

/-- Model of `arr.join(' ')`. -/
def joinSpace : List String → String
  | [] => ""
  | [x] => x
  | x :: y :: ys => x ++ " " ++ joinSpace (y :: ys)

/-- A row of the `tags` table. -/
structure Tag where
  id : Nat
  name : String
deriving DecidableEq

/-- A row of the `posts` table. -/
structure Post where
  id : Nat
  user_id : Nat
  filename : String
  created_at : Nat
deriving DecidableEq

/-- The database: one list per table, rows in table order.
`users` rows are `(id, username)`; `post_tags` rows are
`(post_id, tag_id)`; `likes` rows are `(user_id, post_id)`. -/
structure DB where
  users : List (Nat × String)
  posts : List Post
  tags : List Tag
  post_tags : List (Nat × Nat)
  likes : List (Nat × Nat)
  nextTagId : Nat
deriving DecidableEq

/-- The integrity constraints the schema of `initDB` enforces:
primary keys of `tags`, `posts` and `post_tags`, the `UNIQUE` constraint
on `tags.name`, and freshness of the `AUTOINCREMENT` counter. -/
def DBwf (db : DB) : Prop :=
  (db.tags.map Tag.id).Nodup ∧
  (db.tags.map Tag.name).Nodup ∧
  (∀ t ∈ db.tags, t.id < db.nextTagId) ∧
  db.post_tags.Nodup ∧
  (db.posts.map Post.id).Nodup

instance (db : DB) : Decidable (DBwf db) := by
  unfold DBwf; infer_instance

/-- `ensureTagIds` from `server.js`: for each name in order, look the name
up in `tags` (`SELECT id FROM tags WHERE name = ?`); if present push the
existing id, otherwise insert a fresh row (`INSERT INTO tags(name)`) and
push its `lastID`. -/
def ensureTagIds : List String → DB → List Nat × DB
  | [], db => ([], db)
  | t :: ts, db =>
    match db.tags.find? (fun r => decide (r.name = t)) with
    | some r =>
      let rest := ensureTagIds ts db
      (r.id :: rest.1, rest.2)
    | none =>
      let db1 : DB :=
        { db with tags := db.tags ++ [⟨db.nextTagId, t⟩], nextTagId := db.nextTagId + 1 }
      let rest := ensureTagIds ts db1
      (db.nextTagId :: rest.1, rest.2)

/-- `attachTagsToPost` from `server.js`:
`INSERT OR IGNORE INTO post_tags(post_id, tag_id)` for each id. -/
def attachTagsToPost (post_id : Nat) : List Nat → DB → DB
  | [], db => db
  | tid :: ts, db =>
    let db1 : DB :=
      if (post_id, tid) ∈ db.post_tags then db
      else { db with post_tags := db.post_tags ++ [(post_id, tid)] }
    attachTagsToPost post_id ts db1

/-- `DELETE FROM post_tags WHERE post_id = ?` (edit route). -/
def deletePostTags (db : DB) (post_id : Nat) : DB :=
  { db with post_tags := db.post_tags.filter (fun r => decide (r.1 ≠ post_id)) }

/-- `SELECT t.name FROM tags t JOIN post_tags pt ON pt.tag_id = t.id
WHERE pt.post_id = ?`: the names of the tags attached to a post. -/
def postTagNames (db : DB) (post_id : Nat) : List String :=
  (db.tags.filter (fun t => decide ((post_id, t.id) ∈ db.post_tags))).map Tag.name

/-- The `POST /post/:id/edit` route body (after the authentication and
ownership checks, which involve only the session): find the post, fall
back to the post's existing tag names when the submitted text is missing
or blank, parse, delete all existing `post_tags` rows of the post, ensure
ids, attach.  `none` models a post id with no row (the route 404s). -/
def editPostTags (db : DB) (postId : Nat) (bodyTags : Option String) : Option DB :=
  match db.posts.find? (fun p => decide (p.id = postId)) with
  | none => none
  | some post =>
    let tagsInput :=
      match bodyTags with
      | none => joinSpace (postTagNames db post.id)
      | some s => if trimWs s = "" then joinSpace (postTagNames db post.id) else s
    let tags := parseTags tagsInput
    let db1 := deletePostTags db post.id
    let res := ensureTagIds tags db1
    some (attachTagsToPost post.id res.1 res.2)

/-- The correlated subquery
`(SELECT COUNT(*) FROM likes l WHERE l.post_id = p.id)` (`likes_count`). -/
def likesCount (db : DB) (post_id : Nat) : Nat :=
  (db.likes.filter (fun r => decide (r.2 = post_id))).length

/-- Insert `x` in front of the first element `y` with `le x y`. -/
def insertLe {α : Type} (le : α → α → Bool) (x : α) : List α → List α
  | [] => [x]
  | y :: ys => if le x y then x :: y :: ys else y :: insertLe le x ys

/-- Stable insertion sort; models `ORDER BY` with ties keeping table
order (SQLite leaves tie order unspecified; no proved fact below relies
on a particular tie order except where explicitly exhibiting one). -/
def sortByLe {α : Type} (le : α → α → Bool) : List α → List α
  | [] => []
  | x :: xs => insertLe le x (sortByLe le xs)

/-- The `ORDER BY` key of the search route, from `req.query.sort`:
`'oldest'` → `created_at ASC`, `'likes'` → `likes_count DESC`,
anything else → `created_at DESC`. -/
def sortLe (sortParam : String) (db : DB) (a b : Post) : Bool :=
  if sortParam = "oldest" then decide (a.created_at ≤ b.created_at)
  else if sortParam = "likes" then decide (likesCount db b.id ≤ likesCount db a.id)
  else decide (b.created_at ≤ a.created_at)

/-- `(req.query.tags || '').split(',').map(t => t.trim()).filter(Boolean)`
after the split: trim each raw tag and drop empty ones. -/
def cleanedTags (tagsRaw : List String) : List String :=
  (tagsRaw.map trimWs).filter (fun t => decide (t ≠ ""))

/-- `t.startsWith('#') ? t.toLowerCase() : '#' + t.toLowerCase()`. -/
def normalizeSearchTag (t : String) : String :=
  if startsHash t then asciiLower t else ⟨'#' :: (asciiLower t).data⟩

/-- The normalized tag names of a search request. -/
def normTagsOf (tagsRaw : List String) : List String :=
  (cleanedTags tagsRaw).map normalizeSearchTag

/-- `SELECT id FROM tags WHERE name IN (...)`: one id per table row whose
name occurs in the list (each matching row once, in table order). -/
def lookupIds (db : DB) (names : List String) : List Nat :=
  (db.tags.filter (fun t => decide (t.name ∈ names))).map Tag.id

/-- `COUNT(DISTINCT pt.tag_id)` over the `post_tags` rows of one post
restricted to `tag_id IN (tagIds)`. -/
def matchedTagCount (db : DB) (tagIds : List Nat) (post_id : Nat) : Nat :=
  (((db.post_tags.filter (fun r => decide (r.1 = post_id) && decide (r.2 ∈ tagIds))).map
      (fun r => r.2)).dedup).length

/-- `JOIN users u ON u.id = p.user_id`: the post has a matching user row
(`users.id` is the primary key, so at most one row matches). -/
def userJoined (db : DB) (p : Post) : Bool :=
  db.users.any (fun u => decide (u.1 = p.user_id))

/-- The search route before pagination: the full ordered matching post
list and the total matching count.

* Empty tag list: all posts (`LEFT JOIN users` keeps every post), total
  `SELECT COUNT(*) FROM posts`.
* Otherwise resolve names; when the resolved id count differs from the
  requested name count, short-circuit to `([], 0)` with no matching query.
* Otherwise keep posts whose distinct matched-tag count equals the number
  of resolved ids (the `JOIN post_tags` requirement of at least one row is
  subsumed: in this branch the id count is positive).  The paged query
  additionally requires `JOIN users`; the total subquery does not. -/
def homeSearchFull (db : DB) (tagsRaw : List String) (sortParam : String) :
    List Post × Nat :=
  if cleanedTags tagsRaw = [] then
    (sortByLe (sortLe sortParam db) db.posts, db.posts.length)
  else
    let normTags := normTagsOf tagsRaw
    let tagIds := lookupIds db normTags
    if tagIds.length ≠ normTags.length then ([], 0)
    else
      let matched := db.posts.filter
        (fun p => userJoined db p && decide (matchedTagCount db tagIds p.id = tagIds.length))
      let total := (db.posts.filter
        (fun p => decide (matchedTagCount db tagIds p.id = tagIds.length))).length
      (sortByLe (sortLe sortParam db) matched, total)

/-- The search route `GET /`: `page = Math.max(1, page)`, `limit = 12`,
`offset = (page-1)*limit`, returning the page slice of the ordered
matching list plus the total matching count. -/
def homeSearch (db : DB) (tagsRaw : List String) (sortParam : String) (page : Int) :
    List Post × Nat :=
  let pageN : Int := max 1 page
  let offset : Nat := (pageN - 1).toNat * 12
  let full := homeSearchFull db tagsRaw sortParam
  ((full.1.drop offset).take 12, full.2)

/-- A post carries a tag of a given name. -/
def taggedWith (db : DB) (p : Post) (n : String) : Prop :=
  ∃ t ∈ db.tags, t.name = n ∧ (p.id, t.id) ∈ db.post_tags

instance (db : DB) (p : Post) (n : String) : Decidable (taggedWith db p n) := by
  unfold taggedWith; infer_instance

def exP1 : Post := ⟨1, 1, "one.png", 10⟩

def exP2 : Post := ⟨2, 1, "two.png", 20⟩

def exDB : DB where
  users := [(1, "alice")]
  posts := [exP1, exP2]
  tags := [⟨1, "#cat"⟩, ⟨2, "#dog"⟩]
  post_tags := [(1, 1), (1, 2), (2, 1)]
  likes := []
  nextTagId := 3

/-- A tag name in the form `parseTags` produces: a single leading `#`,
no whitespace, no second leading `#`, case-fold-stable characters.
Every vocabulary row created through `ensureTagIds` from `parseTags`
output has this shape. -/
def canonicalTag (s : String) : Bool :=
  match s.data with
  | [] => false
  | c :: rest =>
    decide (c = '#') &&
    (match rest with
     | [] => true
     | c2 :: _ => decide (c2 ≠ '#')) &&
    rest.all (fun c => !isWs c && decide (foldCase c = c))

/-- `COUNT(pt.post_id)` with `LEFT JOIN post_tags`: the number of
`post_tags` rows for a tag (0 when none — `COUNT` of a column ignores the
`NULL` row the left join produces). -/
def usageCount (db : DB) (tag_id : Nat) : Nat :=
  (db.post_tags.filter (fun r => decide (r.2 = tag_id))).length

/-- Try a matcher on every suffix of the string (the semantics of a
trailing-context `%`). -/
def likeSuffixes (f : List Char → Bool) : List Char → Bool
  | [] => f []
  | c :: s' => f (c :: s') || likeSuffixes f s'

/-- SQLite `LIKE` on ASCII data: `%` matches any run, `_` any single
character, other characters match case-insensitively. -/
def likeChars : List Char → List Char → Bool
  | [], s => decide (s = [])
  | p :: ps, s =>
    if p = '%' then likeSuffixes (fun t => likeChars ps t) s
    else if p = '_' then
      match s with
      | [] => false
      | _ :: s' => likeChars ps s'
    else
      match s with
      | [] => false
      | c :: s' => decide (foldCase p = foldCase c) && likeChars ps s'

/-- The `GET /tags/autocomplete` route: lower-case the query, reject an
empty one, prepend `#` when absent, return the vocabulary rows whose name
`LIKE`-matches `normalized + '%'` with their usage counts, ordered by
count descending, capped at 10. -/
def autocompleteRoute (db : DB) (qRaw : String) : List (String × Nat) :=
  let q := asciiLower qRaw
  if q = "" then []
  else
    let normalized := if startsHash q then q else ⟨'#' :: q.data⟩
    let rows := (db.tags.filter
      (fun t => likeChars (normalized.data ++ ['%']) t.name.data)).map
        (fun t => (t.name, usageCount db t.id))
    (sortByLe (fun a b => decide (b.2 ≤ a.2)) rows).take 10

/-- The prefix `main.js` derives from the search input: last
whitespace-separated token of the trimmed text, leading `#` run stripped,
lower-cased. -/
def acPrefixText (input : String) : String :=
  asciiLower ⟨((splitWs (trimWs input)).getLastD "").data.dropWhile
    (fun c => c = '#')⟩

/-- The full client autocomplete path of `main.js`: empty input or empty
derived prefix produce no request (empty suggestion list); otherwise the
route is queried with the derived prefix. -/
def clientSuggest (db : DB) (input : String) : List (String × Nat) :=
  if trimWs input = "" then []
  else if acPrefixText input = "" then []
  else autocompleteRoute db (acPrefixText input)

/-- The database for the autocomplete counterexample: one tag `#ab` used
by one post. -/
def exDB7 : DB where
  users := [(1, "alice")]
  posts := [exP1]
  tags := [⟨1, "#ab"⟩]
  post_tags := [(1, 1)]
  likes := []
  nextTagId := 2

/-- C9: `ensureTagIds` is idempotent per name: calling it with `[n]` twice
in succession returns the same identifier both times, leaves the database
unchanged on the second call, and the tag vocabulary gains at most one
entry across both calls. -/
theorem c9_ensureTagIds_idempotent (db : DB) (n : String) :
    (ensureTagIds [n] ((ensureTagIds [n] db).2)).1 = (ensureTagIds [n] db).1 ∧
    (ensureTagIds [n] ((ensureTagIds [n] db).2)).2 = (ensureTagIds [n] db).2 ∧
    (ensureTagIds [n] db).2.tags.length ≤ db.tags.length + 1 := by
  cases h : db.tags.find? (fun r => decide (r.name = n)) with
  | some r =>
    simp [ensureTagIds, h]
  | none =>
    simp [ensureTagIds, h, List.find?_append, List.find?_cons]

theorem insertLe_perm {α : Type} (le : α → α → Bool) (x : α) :
    ∀ l : List α, List.Perm (insertLe le x l) (x :: l)
  | [] => by simp [insertLe]
  | y :: ys => by
    simp only [insertLe]
    by_cases h : le x y
    · rw [if_pos h]
    · rw [if_neg h]
      exact ((insertLe_perm le x ys).cons y).trans (List.Perm.swap x y ys)

theorem sortByLe_perm {α : Type} (le : α → α → Bool) :
    ∀ l : List α, List.Perm (sortByLe le l) l
  | [] => by simp [sortByLe]
  | x :: xs => by
    simpa [sortByLe] using (insertLe_perm le x (sortByLe le xs)).trans
      ((sortByLe_perm le xs).cons x)

theorem mem_sortByLe {α : Type} {le : α → α → Bool} {x : α} {l : List α} :
    x ∈ sortByLe le l ↔ x ∈ l :=
  (sortByLe_perm le l).mem_iff

theorem pairwise_insertLe {α : Type} {le : α → α → Bool}
    (htot : ∀ a b, le a b = true ∨ le b a = true)
    (htrans : ∀ a b c, le a b = true → le b c = true → le a c = true)
    (x : α) {l : List α} (h : l.Pairwise (fun a b => le a b = true)) :
    (insertLe le x l).Pairwise (fun a b => le a b = true) := by
  induction l with
  | nil => simp [insertLe]
  | cons y ys ih =>
    simp only [insertLe]
    by_cases hxy : le x y
    · rw [if_pos hxy]
      refine List.Pairwise.cons ?_ h
      intro z hz
      rcases List.mem_cons.mp hz with hzy | hzys
      · exact hzy ▸ hxy
      · exact htrans x y z hxy (List.rel_of_pairwise_cons h hzys)
    · rw [if_neg hxy]
      have hyx : le y x = true := (htot x y).resolve_left hxy
      refine List.Pairwise.cons ?_ (ih h.of_cons)
      intro z hz
      rcases List.mem_cons.mp ((insertLe_perm le x ys).mem_iff.mp hz) with hzx | hzys
      · exact hzx ▸ hyx
      · exact List.rel_of_pairwise_cons h hzys

theorem pairwise_sortByLe {α : Type} {le : α → α → Bool}
    (htot : ∀ a b, le a b = true ∨ le b a = true)
    (htrans : ∀ a b c, le a b = true → le b c = true → le a c = true) :
    ∀ l : List α, (sortByLe le l).Pairwise (fun a b => le a b = true)
  | [] => by simp [sortByLe]
  | x :: xs => pairwise_insertLe htot htrans x (pairwise_sortByLe htot htrans xs)

theorem lookupIds_length_lt_of_missing (db : DB) (names : List String)
    (hnd : (db.tags.map Tag.name).Nodup) {n : String} (hn : n ∈ names)
    (hmiss : ∀ t ∈ db.tags, t.name ≠ n) :
    (lookupIds db names).length < names.length := by
  have hFsub : List.Sublist
      ((db.tags.filter (fun t => decide (t.name ∈ names))).map Tag.name)
      (db.tags.map Tag.name) := (List.filter_sublist _).map _
  have hFnd := List.Nodup.sublist hFsub hnd
  have hsubset : ((db.tags.filter (fun t => decide (t.name ∈ names))).map Tag.name) ⊆
      (names.dedup).erase n := by
    intro x hx
    obtain ⟨t, ht, rfl⟩ := List.mem_map.mp hx
    have htf := List.mem_filter.mp ht
    have hmem : t.name ∈ names := by simpa using htf.2
    exact (List.mem_erase_of_ne (hmiss t htf.1)).mpr (List.mem_dedup.mpr hmem)
  have h1 := (List.subperm_of_subset hFnd hsubset).length_le
  have h2 : ((names.dedup).erase n).length = names.dedup.length - 1 :=
    List.length_erase_of_mem (List.mem_dedup.mpr hn)
  have h3 : names.dedup.length ≤ names.length := (List.dedup_sublist names).length_le
  have h4 : 0 < names.dedup.length := List.length_pos_of_mem (List.mem_dedup.mpr hn)
  have h5 : (lookupIds db names).length =
      ((db.tags.filter (fun t => decide (t.name ∈ names))).map Tag.name).length := by
    simp [lookupIds]
  omega

theorem lookupIds_length_lt_of_dup (db : DB) (names : List String)
    (hnd : (db.tags.map Tag.name).Nodup) (hdup : ¬ names.Nodup) :
    (lookupIds db names).length < names.length := by
  have hFsub : List.Sublist
      ((db.tags.filter (fun t => decide (t.name ∈ names))).map Tag.name)
      (db.tags.map Tag.name) := (List.filter_sublist _).map _
  have hFnd := List.Nodup.sublist hFsub hnd
  have hsubset : ((db.tags.filter (fun t => decide (t.name ∈ names))).map Tag.name) ⊆
      names.dedup := by
    intro x hx
    obtain ⟨t, ht, rfl⟩ := List.mem_map.mp hx
    have htf := List.mem_filter.mp ht
    exact List.mem_dedup.mpr (by simpa using htf.2)
  have h1 := (List.subperm_of_subset hFnd hsubset).length_le
  have h3 : names.dedup.length ≤ names.length := (List.dedup_sublist names).length_le
  have h4 : names.dedup.length ≠ names.length := by
    intro he
    exact hdup ((List.dedup_sublist names).eq_of_length he ▸ List.nodup_dedup names)
  have h5 : (lookupIds db names).length =
      ((db.tags.filter (fun t => decide (t.name ∈ names))).map Tag.name).length := by
    simp [lookupIds]
  omega

theorem lookupIds_length_eq (db : DB) (names : List String)
    (hnd : (db.tags.map Tag.name).Nodup) (hnodup : names.Nodup)
    (hres : ∀ n ∈ names, ∃ t ∈ db.tags, t.name = n) :
    (lookupIds db names).length = names.length := by
  have hFsub : List.Sublist
      ((db.tags.filter (fun t => decide (t.name ∈ names))).map Tag.name)
      (db.tags.map Tag.name) := (List.filter_sublist _).map _
  have hFnd := List.Nodup.sublist hFsub hnd
  have hsub1 : ((db.tags.filter (fun t => decide (t.name ∈ names))).map Tag.name) ⊆
      names := by
    intro x hx
    obtain ⟨t, ht, rfl⟩ := List.mem_map.mp hx
    exact (by simpa using (List.mem_filter.mp ht).2)
  have hsub2 : names ⊆
      ((db.tags.filter (fun t => decide (t.name ∈ names))).map Tag.name) := by
    intro n hn
    obtain ⟨t, ht, hname⟩ := hres n hn
    exact List.mem_map.mpr ⟨t, List.mem_filter.mpr ⟨ht, by simp [hname, hn]⟩, hname⟩
  have hperm := (List.subperm_of_subset hFnd hsub1).antisymm
    (List.subperm_of_subset hnodup hsub2)
  have h5 : (lookupIds db names).length =
      ((db.tags.filter (fun t => decide (t.name ∈ names))).map Tag.name).length := by
    simp [lookupIds]
  rw [h5, hperm.length_eq]

theorem lookupIds_nodup (db : DB) (names : List String)
    (hids : (db.tags.map Tag.id).Nodup) : (lookupIds db names).Nodup :=
  List.Nodup.sublist ((List.filter_sublist _).map _) hids

theorem matchedTagCount_eq_iff (db : DB) (tagIds : List Nat) (pid : Nat)
    (hnd : tagIds.Nodup) :
    matchedTagCount db tagIds pid = tagIds.length ↔
      ∀ tid ∈ tagIds, (pid, tid) ∈ db.post_tags := by
  have hmemM : ∀ t,
      (t ∈ ((db.post_tags.filter
          (fun r => decide (r.1 = pid) && decide (r.2 ∈ tagIds))).map
            (fun r => r.2)).dedup) ↔ ((pid, t) ∈ db.post_tags ∧ t ∈ tagIds) := by
    intro t
    simp only [List.mem_dedup, List.mem_map, List.mem_filter]
    constructor
    · rintro ⟨⟨a, b⟩, ⟨hr, hcond⟩, rfl⟩
      simp only [Bool.and_eq_true, decide_eq_true_eq] at hcond
      obtain ⟨h1, h2⟩ := hcond
      subst h1
      exact ⟨hr, h2⟩
    · rintro ⟨hpt, htid⟩
      exact ⟨(pid, t), ⟨hpt, by simp [htid]⟩, rfl⟩
  have hMnd : (((db.post_tags.filter
      (fun r => decide (r.1 = pid) && decide (r.2 ∈ tagIds))).map
        (fun r => r.2)).dedup).Nodup := List.nodup_dedup _
  have hMsub : (((db.post_tags.filter
      (fun r => decide (r.1 = pid) && decide (r.2 ∈ tagIds))).map
        (fun r => r.2)).dedup) ⊆ tagIds := fun t ht => ((hmemM t).mp ht).2
  constructor
  · intro hlen tid htid
    obtain ⟨l', hperm, hsub⟩ := List.subperm_of_subset hMnd hMsub
    have hl2 : l'.length = tagIds.length := by
      rw [hperm.length_eq]; exact hlen
    have hl3 : l' = tagIds := hsub.eq_of_length hl2
    have : tid ∈ l' := hl3 ▸ htid
    exact ((hmemM tid).mp (hperm.mem_iff.mp this)).1
  · intro hall
    have h1 : tagIds ⊆ (((db.post_tags.filter
        (fun r => decide (r.1 = pid) && decide (r.2 ∈ tagIds))).map
          (fun r => r.2)).dedup) := fun t ht => (hmemM t).mpr ⟨hall t ht, ht⟩
    have hle1 := (List.subperm_of_subset hnd h1).length_le
    have hle2 := (List.subperm_of_subset hMnd hMsub).length_le
    unfold matchedTagCount
    omega

theorem forall_lookup_mem_iff (db : DB) (names : List String) (pid : Nat)
    (hnames : (db.tags.map Tag.name).Nodup)
    (hres : ∀ n ∈ names, ∃ t ∈ db.tags, t.name = n) :
    (∀ tid ∈ lookupIds db names, (pid, tid) ∈ db.post_tags) ↔
      (∀ n ∈ names, ∃ t ∈ db.tags, t.name = n ∧ (pid, t.id) ∈ db.post_tags) := by
  constructor
  · intro h n hn
    obtain ⟨t, ht, hname⟩ := hres n hn
    have : t.id ∈ lookupIds db names :=
      List.mem_map.mpr ⟨t, List.mem_filter.mpr ⟨ht, by simp [hname, hn]⟩, rfl⟩
    exact ⟨t, ht, hname, h t.id this⟩
  · intro h tid htid
    simp only [lookupIds, List.mem_map, List.mem_filter] at htid
    obtain ⟨t, ⟨ht, hmem⟩, rfl⟩ := htid
    obtain ⟨t', ht', hname', hpair⟩ := h t.name (by simpa using hmem)
    have : t' = t := List.inj_on_of_nodup_map hnames ht' ht hname'
    exact this ▸ hpair

/-- C2: when at least one requested tag name (after normalization) has no
row in the tag vocabulary, the search returns the successful empty result
`([], 0)` — the short-circuit branch, which issues no post-tag matching
query. -/
theorem c2_unresolved_tag_empty (db : DB) (tagsRaw : List String)
    (sortParam : String) (page : Int)
    (hnd : (db.tags.map Tag.name).Nodup)
    (hmiss : ∃ n ∈ normTagsOf tagsRaw, ∀ t ∈ db.tags, t.name ≠ n) :
    homeSearchFull db tagsRaw sortParam = ([], 0) ∧
    homeSearch db tagsRaw sortParam page = ([], 0) := by
  obtain ⟨n, hn, hm⟩ := hmiss
  have hne : cleanedTags tagsRaw ≠ [] := by
    intro h
    rw [normTagsOf, h] at hn
    simp at hn
  have hlt := lookupIds_length_lt_of_missing db (normTagsOf tagsRaw) hnd hn hm
  have hneq : (lookupIds db (normTagsOf tagsRaw)).length ≠
      (normTagsOf tagsRaw).length := Nat.ne_of_lt hlt
  constructor
  · simp [homeSearchFull, hne, hneq]
  · simp [homeSearch, homeSearchFull, hne, hneq]

/-- Witness for C2 on the concrete database: `#bird` has no vocabulary
row, so the search for it is empty. -/
theorem c2_unresolved_tag_empty_witness :
    homeSearchFull exDB ["#bird"] "newest" = ([], 0) ∧
    homeSearch exDB ["#bird"] "newest" 1 = ([], 0) :=
  c2_unresolved_tag_empty exDB ["#bird"] "newest" 1 (by decide) (by decide)

/-- Counterexample to C1 as stated: in `exDB` every name of the request
`["#cat", "#cat"]` resolves to an existing tag identifier and `exP2` is
tagged with every requested tag, yet the search returns no posts: the
route compares the count of distinct resolved ids (1) with the raw
request length (2) and short-circuits to the empty result. -/
theorem c1_counterexample :
    (∀ n ∈ normTagsOf ["#cat", "#cat"], ∃ t ∈ exDB.tags, t.name = n) ∧
    exP2 ∈ exDB.posts ∧
    (∀ n ∈ normTagsOf ["#cat", "#cat"], taggedWith exDB exP2 n) ∧
    homeSearch exDB ["#cat", "#cat"] "newest" 1 = ([], 0) := by
  decide

/-- C1 (amended: the requested names are additionally duplicate-free
after normalization): the matching set is exactly the posts tagged with
every requested tag, and every returned page contains only such posts. -/
theorem c1_and_semantics (db : DB) (tagsRaw : List String)
    (sortParam : String) (page : Int)
    (hids : (db.tags.map Tag.id).Nodup)
    (hnames : (db.tags.map Tag.name).Nodup)
    (husers : ∀ p ∈ db.posts, ∃ u ∈ db.users, u.1 = p.user_id)
    (hne : cleanedTags tagsRaw ≠ [])
    (hnd : (normTagsOf tagsRaw).Nodup)
    (hres : ∀ n ∈ normTagsOf tagsRaw, ∃ t ∈ db.tags, t.name = n) :
    (∀ p, p ∈ (homeSearchFull db tagsRaw sortParam).1 ↔
      (p ∈ db.posts ∧ ∀ n ∈ normTagsOf tagsRaw, taggedWith db p n)) ∧
    (∀ p ∈ (homeSearch db tagsRaw sortParam page).1,
      p ∈ db.posts ∧ ∀ n ∈ normTagsOf tagsRaw, taggedWith db p n) := by
  have hlen := lookupIds_length_eq db (normTagsOf tagsRaw) hnames hnd hres
  have hfull : (homeSearchFull db tagsRaw sortParam).1 =
      sortByLe (sortLe sortParam db) (db.posts.filter
        (fun q => userJoined db q &&
          decide (matchedTagCount db (lookupIds db (normTagsOf tagsRaw)) q.id =
            (lookupIds db (normTagsOf tagsRaw)).length))) := by
    simp [homeSearchFull, hne, hlen]
  have hmain : ∀ p, p ∈ (homeSearchFull db tagsRaw sortParam).1 ↔
      (p ∈ db.posts ∧ ∀ n ∈ normTagsOf tagsRaw, taggedWith db p n) := by
    intro p
    rw [hfull, mem_sortByLe, List.mem_filter]
    constructor
    · rintro ⟨hp, hcond⟩
      simp only [Bool.and_eq_true, decide_eq_true_eq] at hcond
      have hall := (matchedTagCount_eq_iff db _ p.id
        (lookupIds_nodup db _ hids)).mp hcond.2
      exact ⟨hp, (forall_lookup_mem_iff db _ p.id hnames hres).mp hall⟩
    · rintro ⟨hp, htag⟩
      refine ⟨hp, ?_⟩
      simp only [Bool.and_eq_true, decide_eq_true_eq]
      refine ⟨?_, ?_⟩
      · obtain ⟨u, hu, hue⟩ := husers p hp
        simp only [userJoined, List.any_eq_true, decide_eq_true_eq]
        exact ⟨u, hu, hue⟩
      · exact (matchedTagCount_eq_iff db _ p.id (lookupIds_nodup db _ hids)).mpr
          ((forall_lookup_mem_iff db _ p.id hnames hres).mpr htag)
  refine ⟨hmain, ?_⟩
  intro p hp
  have hsub : List.Sublist (homeSearch db tagsRaw sortParam page).1
      (homeSearchFull db tagsRaw sortParam).1 := by
    simp only [homeSearch]
    exact (List.take_sublist _ _).trans (List.drop_sublist _ _)
  exact (hmain p).mp (hsub.mem hp)

/-- Witness for the amended C1 on the concrete database with the request
`["cat", "dog"]`. -/
theorem c1_and_semantics_witness :
    (∀ p, p ∈ (homeSearchFull exDB ["cat", "dog"] "newest").1 ↔
      (p ∈ exDB.posts ∧ ∀ n ∈ normTagsOf ["cat", "dog"], taggedWith exDB p n)) ∧
    (∀ p ∈ (homeSearch exDB ["cat", "dog"] "newest" 1).1,
      p ∈ exDB.posts ∧ ∀ n ∈ normTagsOf ["cat", "dog"], taggedWith exDB p n) :=
  c1_and_semantics exDB ["cat", "dog"] "newest" 1 (by decide) (by decide)
    (by decide) (by decide) (by decide) (by decide)

/-- Counterexample to C3 as stated: searching `exDB` for `["cat", "cat"]`
returns the empty result while the distinct list `["cat"]` returns both
posts — the route does not deduplicate the request. -/
theorem c3_counterexample :
    homeSearch exDB ["cat", "cat"] "newest" 1 = ([], 0) ∧
    homeSearch exDB ["cat"] "newest" 1 = ([exP2, exP1], 2) := by
  decide

/-- C3 (amended): the search normalizes its input but does not
deduplicate it: any request whose normalized names contain a repeat
returns the empty result (the resolved distinct id count is short of the
raw request length); a request with an empty tag list matches every
post. -/
theorem c3_no_dedup_and_empty_matches_all (db : DB) (tagsRaw : List String)
    (sortParam : String) (page : Int)
    (hnd : (db.tags.map Tag.name).Nodup) :
    (¬ (normTagsOf tagsRaw).Nodup →
      homeSearch db tagsRaw sortParam page = ([], 0)) ∧
    (cleanedTags tagsRaw = [] →
      List.Perm (homeSearchFull db tagsRaw sortParam).1 db.posts ∧
      (homeSearchFull db tagsRaw sortParam).2 = db.posts.length) := by
  constructor
  · intro hdup
    have hne : cleanedTags tagsRaw ≠ [] := by
      intro h
      rw [normTagsOf, h] at hdup
      simp at hdup
    have hneq : (lookupIds db (normTagsOf tagsRaw)).length ≠
        (normTagsOf tagsRaw).length :=
      Nat.ne_of_lt (lookupIds_length_lt_of_dup db (normTagsOf tagsRaw) hnd hdup)
    simp [homeSearch, homeSearchFull, hne, hneq]
  · intro h
    refine ⟨?_, by simp [homeSearchFull, h]⟩
    simpa [homeSearchFull, h] using sortByLe_perm (sortLe sortParam db) db.posts

/-- Witness for the amended C3: the duplicated request and the empty
request on the concrete database. -/
theorem c3_no_dedup_and_empty_matches_all_witness :
    (¬ (normTagsOf ["cat", "cat"]).Nodup →
      homeSearch exDB ["cat", "cat"] "newest" 1 = ([], 0)) ∧
    (cleanedTags ["cat", "cat"] = [] →
      List.Perm (homeSearchFull exDB ["cat", "cat"] "newest").1 exDB.posts ∧
      (homeSearchFull exDB ["cat", "cat"] "newest").2 = exDB.posts.length) :=
  c3_no_dedup_and_empty_matches_all exDB ["cat", "cat"] "newest" 1 (by decide)

theorem join_pages {α : Type} : ∀ (n : Nat) (l : List α),
    ((List.range n).map (fun i => (l.drop (i * 12)).take 12)).flatten = l.take (n * 12)
  | 0, l => by simp
  | n + 1, l => by
    rw [List.range_succ, List.map_append, List.flatten_append]
    simp only [List.map_cons, List.map_nil, List.flatten_cons, List.flatten_nil,
      List.append_nil]
    rw [join_pages n l, Nat.succ_mul, List.take_add]

theorem homeSearchFull_nodup (db : DB) (tagsRaw : List String) (sortParam : String)
    (hposts : (db.posts.map Post.id).Nodup) :
    (homeSearchFull db tagsRaw sortParam).1.Nodup := by
  have hpn := List.Nodup.of_map Post.id hposts
  by_cases h1 : cleanedTags tagsRaw = []
  · simp only [homeSearchFull, if_pos h1]
    exact ((sortByLe_perm _ _).nodup_iff).mpr hpn
  · by_cases h2 : (lookupIds db (normTagsOf tagsRaw)).length ≠ (normTagsOf tagsRaw).length
    · simp [homeSearchFull, h1, h2]
    · simp only [homeSearchFull, if_neg h1, if_neg h2]
      exact ((sortByLe_perm _ _).nodup_iff).mpr (hpn.filter _)

/-- C5: `pageSize` is fixed at 12 and `offset = (page-1)*12` with the
page floored to 1: a page below 1 behaves as page 1, the total count does
not depend on the requested page, and concatenating pages `1..n` (for any
`n` whose pages cover the matching set) reproduces the full ordered
matching list, in which each post occurs exactly once. -/
theorem c5_pagination (db : DB) (tagsRaw : List String) (sortParam : String)
    (n : Nat)
    (hposts : (db.posts.map Post.id).Nodup)
    (hcover : (homeSearchFull db tagsRaw sortParam).1.length ≤ n * 12) :
    ((List.range n).map (fun (i : Nat) =>
        (homeSearch db tagsRaw sortParam ((i : Int) + 1)).1)).flatten =
      (homeSearchFull db tagsRaw sortParam).1 ∧
    (∀ p q : Int, (homeSearch db tagsRaw sortParam p).2 =
      (homeSearch db tagsRaw sortParam q).2) ∧
    (∀ p : Int, p ≤ 1 →
      homeSearch db tagsRaw sortParam p = homeSearch db tagsRaw sortParam 1) ∧
    (homeSearchFull db tagsRaw sortParam).1.Nodup := by
  refine ⟨?_, ?_, ?_, homeSearchFull_nodup db tagsRaw sortParam hposts⟩
  · have hoff : ∀ i : Nat, ((max 1 ((i : Int) + 1)) - 1).toNat = i := by
      intro i
      rw [max_eq_right (by omega : (1 : Int) ≤ (i : Int) + 1)]
      omega
    have hpage : ∀ i : Nat, (homeSearch db tagsRaw sortParam ((i : Int) + 1)).1 =
        (((homeSearchFull db tagsRaw sortParam).1.drop (i * 12)).take 12) := by
      intro i
      simp only [homeSearch]
      rw [hoff i]
    rw [List.map_congr_left (fun i _ => hpage i),
      join_pages n (homeSearchFull db tagsRaw sortParam).1,
      List.take_of_length_le hcover]
  · intro p q
    simp [homeSearch]
  · intro p hp
    have hmax : max 1 p = 1 := max_eq_left hp
    simp [homeSearch, hmax]

/-- Witness for C5 on the concrete database: one page of size 12 covers
both posts. -/
theorem c5_pagination_witness :
    ((List.range 1).map (fun (i : Nat) =>
        (homeSearch exDB [] "newest" ((i : Int) + 1)).1)).flatten =
      (homeSearchFull exDB [] "newest").1 ∧
    (∀ p q : Int, (homeSearch exDB [] "newest" p).2 =
      (homeSearch exDB [] "newest" q).2) ∧
    (∀ p : Int, p ≤ 1 →
      homeSearch exDB [] "newest" p = homeSearch exDB [] "newest" 1) ∧
    (homeSearchFull exDB [] "newest").1.Nodup :=
  c5_pagination exDB [] "newest" 1 (by decide) (by decide)

theorem sortLe_total (s : String) (db : DB) :
    ∀ a b, sortLe s db a b = true ∨ sortLe s db b a = true := by
  intro a b
  unfold sortLe
  split_ifs <;> simp <;> omega

theorem sortLe_trans (s : String) (db : DB) :
    ∀ a b c, sortLe s db a b = true → sortLe s db b c = true →
      sortLe s db a c = true := by
  intro a b c
  unfold sortLe
  split_ifs <;> simp <;> omega

theorem homeSearchFull_sorted (db : DB) (tagsRaw : List String) (sortParam : String) :
    (homeSearchFull db tagsRaw sortParam).1.Pairwise
      (fun a b => sortLe sortParam db a b = true) := by
  by_cases h1 : cleanedTags tagsRaw = []
  · simp only [homeSearchFull, if_pos h1]
    exact pairwise_sortByLe (sortLe_total sortParam db) (sortLe_trans sortParam db) _
  · by_cases h2 : (lookupIds db (normTagsOf tagsRaw)).length ≠ (normTagsOf tagsRaw).length
    · simp [homeSearchFull, h1, h2]
    · simp only [homeSearchFull, if_neg h1, if_neg h2]
      exact pairwise_sortByLe (sortLe_total sortParam db) (sortLe_trans sortParam db) _

theorem homeSearch_page_sorted (db : DB) (tagsRaw : List String)
    (sortParam : String) (page : Int) :
    (homeSearch db tagsRaw sortParam page).1.Pairwise
      (fun a b => sortLe sortParam db a b = true) := by
  have hsub : List.Sublist (homeSearch db tagsRaw sortParam page).1
      (homeSearchFull db tagsRaw sortParam).1 := by
    simp only [homeSearch]
    exact (List.take_sublist _ _).trans (List.drop_sublist _ _)
  exact List.Pairwise.sublist hsub (homeSearchFull_sorted db tagsRaw sortParam)

/-- Counterexample to C6 as stated: in `exDB` both posts have like count
0 (a tie) and `exP1` was created before `exP2`, yet the `mostLiked`
(`sort=likes`) search lists `exP1` first — the `ORDER BY` clause is
`likes_count DESC` alone, with no creation-time tie-break, so ties keep
table order rather than creation time descending. -/
theorem c6_counterexample :
    (homeSearch exDB [] "likes" 1).1 = [exP1, exP2] ∧
    likesCount exDB exP1.id = likesCount exDB exP2.id ∧
    exP1.created_at < exP2.created_at := by
  decide

/-- C6 (amended: `mostLiked` orders by like count descending only; the
tie order among equal like counts is not specified by the query): every
search result — the full matching list and any returned page — is ordered
by the requested sort key: `newest` by creation time descending, `oldest`
ascending, `likes` by like count descending. -/
theorem c6_order (db : DB) (tagsRaw : List String) (sortParam : String)
    (page : Int) :
    ((sortParam ≠ "oldest" ∧ sortParam ≠ "likes") →
      ((homeSearchFull db tagsRaw sortParam).1.Pairwise
          (fun a b => b.created_at ≤ a.created_at) ∧
        (homeSearch db tagsRaw sortParam page).1.Pairwise
          (fun a b => b.created_at ≤ a.created_at))) ∧
    (sortParam = "oldest" →
      ((homeSearchFull db tagsRaw sortParam).1.Pairwise
          (fun a b => a.created_at ≤ b.created_at) ∧
        (homeSearch db tagsRaw sortParam page).1.Pairwise
          (fun a b => a.created_at ≤ b.created_at))) ∧
    (sortParam = "likes" →
      ((homeSearchFull db tagsRaw sortParam).1.Pairwise
          (fun a b => likesCount db b.id ≤ likesCount db a.id) ∧
        (homeSearch db tagsRaw sortParam page).1.Pairwise
          (fun a b => likesCount db b.id ≤ likesCount db a.id))) := by
  have hfull := homeSearchFull_sorted db tagsRaw sortParam
  have hpage := homeSearch_page_sorted db tagsRaw sortParam page
  refine ⟨?_, ?_, ?_⟩
  · rintro ⟨h1, h2⟩
    constructor
    · refine hfull.imp ?_
      intro a b hab
      simpa [sortLe, h1, h2] using hab
    · refine hpage.imp ?_
      intro a b hab
      simpa [sortLe, h1, h2] using hab
  · intro h1
    constructor
    · refine hfull.imp ?_
      intro a b hab
      simpa [sortLe, h1] using hab
    · refine hpage.imp ?_
      intro a b hab
      simpa [sortLe, h1] using hab
  · intro h1
    constructor
    · refine hfull.imp ?_
      intro a b hab
      simpa [sortLe, h1] using hab
    · refine hpage.imp ?_
      intro a b hab
      simpa [sortLe, h1] using hab

/-- Witness for the amended C6: the `likes` ordering on the concrete
database. -/
theorem c6_order_witness :
    (("likes" ≠ "oldest" ∧ "likes" ≠ "likes") →
      ((homeSearchFull exDB ["cat"] "likes").1.Pairwise
          (fun a b => b.created_at ≤ a.created_at) ∧
        (homeSearch exDB ["cat"] "likes" 1).1.Pairwise
          (fun a b => b.created_at ≤ a.created_at))) ∧
    (("likes" : String) = "oldest" →
      ((homeSearchFull exDB ["cat"] "likes").1.Pairwise
          (fun a b => a.created_at ≤ b.created_at) ∧
        (homeSearch exDB ["cat"] "likes" 1).1.Pairwise
          (fun a b => a.created_at ≤ b.created_at))) ∧
    (("likes" : String) = "likes" →
      ((homeSearchFull exDB ["cat"] "likes").1.Pairwise
          (fun a b => likesCount exDB b.id ≤ likesCount exDB a.id) ∧
        (homeSearch exDB ["cat"] "likes" 1).1.Pairwise
          (fun a b => likesCount exDB b.id ≤ likesCount exDB a.id))) :=
  c6_order exDB ["cat"] "likes" 1

theorem wordsAux_all_ws (l : List Char) (h : ∀ c ∈ l, isWs c = true) :
    wordsAux l [] = [] := by
  induction l with
  | nil => rfl
  | cons c cs ih =>
    have hc := h c (List.mem_cons_self _ _)
    simp only [wordsAux, hc, if_true]
    exact ih fun d hd => h d (List.mem_cons_of_mem _ hd)

theorem wordsAux_no_ws (l : List Char) :
    ∀ acc : List Char, (∀ c ∈ l, isWs c = false) →
      wordsAux l acc =
        if acc.reverse ++ l = [] then [] else [acc.reverse ++ l] := by
  induction l with
  | nil =>
    intro acc _
    simp [wordsAux]
  | cons c cs ih =>
    intro acc h
    have hc := h c (List.mem_cons_self _ _)
    simp only [wordsAux, hc, Bool.false_eq_true, if_false]
    rw [ih (c :: acc) (fun d hd => h d (List.mem_cons_of_mem _ hd))]
    rw [if_neg (by simp), if_neg (by simp)]
    simp

theorem dropWhile_isWs_of_no_ws (l : List Char) (h : ∀ c ∈ l, isWs c = false) :
    l.dropWhile (fun c => isWs c) = l := by
  cases l with
  | nil => rfl
  | cons c cs => simp [List.dropWhile_cons, h c (List.mem_cons_self _ _)]

theorem trimWs_no_ws (w : List Char) (h : ∀ c ∈ w, isWs c = false) :
    trimWs ⟨w⟩ = ⟨w⟩ := by
  simp only [trimWs]
  rw [dropWhile_isWs_of_no_ws w h,
    dropWhile_isWs_of_no_ws w.reverse (fun c hc => h c (List.mem_reverse.mp hc)),
    List.reverse_reverse]

theorem dropWhile_hash_replicate (k : Nat) :
    (List.replicate k '#').dropWhile (fun c => c = '#') = [] := by
  induction k with
  | zero => rfl
  | succ n ih => simp [List.replicate_succ, List.dropWhile_cons, ih]

/-- Counterexample to C8 as stated: the token `"#"` consists only of
marker characters, yet `parseTags` keeps it: the replacement
`/^#+/ → '#'` collapses a marker run to a single `'#'` instead of the
empty string, and nothing filters it afterwards. -/
theorem c8_counterexample : parseTags "#" = ["#"] ∧ parseTags "##" = ["#"] := by
  decide

/-- C8 (amended: a token consisting only of marker characters is not
discarded; it normalizes to the single-character token `"#"` and is
kept): empty or whitespace-only input yields the empty sequence, and an
input consisting of one marker-only token yields `["#"]`. -/
theorem c8_blank_and_marker_tokens :
    (∀ s : String, (∀ c ∈ s.data, isWs c = true) → parseTags s = []) ∧
    (∀ k : Nat, parseTags ⟨List.replicate (k + 1) '#'⟩ = ["#"]) := by
  constructor
  · intro s h
    by_cases hs : s = ""
    · rw [hs]; rfl
    · simp [parseTags, hs, splitWs, words, wordsAux_all_ws s.data h, dedupFirst,
        dedupAux]
  · intro k
    have hnws : ∀ c ∈ List.replicate (k + 1) '#', isWs c = false := by
      intro c hc
      rw [List.eq_of_mem_replicate hc]
      rfl
    have hne : (⟨List.replicate (k + 1) '#'⟩ : String) ≠ "" := by
      intro he
      have hd : List.replicate (k + 1) '#' = ([] : List Char) :=
        congrArg String.data he
      simp at hd
    have hws : words (List.replicate (k + 1) '#') =
        [List.replicate (k + 1) '#'] := by
      rw [words, wordsAux_no_ws _ [] hnws]
      simp
    simp only [parseTags, hne, if_neg hne, splitWs]
    rw [hws]
    simp only [List.map_cons, List.map_nil]
    rw [trimWs_no_ws _ hnws]
    have hsh : startsHash ⟨List.replicate (k + 1) '#'⟩ = true := by
      simp [startsHash, List.replicate_succ]
    have hch : collapseHash ⟨List.replicate (k + 1) '#'⟩ = "#" := by
      simp only [collapseHash, List.replicate_succ]
      rw [dropWhile_hash_replicate k]
    simp only [List.filter_cons, hsh, List.filter_nil, List.map_cons, List.map_nil,
      if_true, if_false, hch]
    decide

theorem forall2_mem_left {α β : Type} {R : α → β → Prop} :
    ∀ {l₁ : List α} {l₂ : List β}, List.Forall₂ R l₁ l₂ →
      ∀ a ∈ l₁, ∃ b ∈ l₂, R a b := by
  intro l₁ l₂ h
  induction h with
  | nil => intro a ha; simp at ha
  | @cons a' b' _ _ hR _ ih =>
    intro a ha
    rcases List.mem_cons.mp ha with rfl | ha'
    · exact ⟨b', List.mem_cons_self _ _, hR⟩
    · obtain ⟨b, hb, hRb⟩ := ih a ha'
      exact ⟨b, List.mem_cons_of_mem _ hb, hRb⟩

theorem forall2_mem_right {α β : Type} {R : α → β → Prop} :
    ∀ {l₁ : List α} {l₂ : List β}, List.Forall₂ R l₁ l₂ →
      ∀ b ∈ l₂, ∃ a ∈ l₁, R a b := by
  intro l₁ l₂ h
  induction h with
  | nil => intro b hb; simp at hb
  | @cons a' b' _ _ hR _ ih =>
    intro b hb
    rcases List.mem_cons.mp hb with rfl | hb'
    · exact ⟨a', List.mem_cons_self _ _, hR⟩
    · obtain ⟨a, ha, hRa⟩ := ih b hb'
      exact ⟨a, List.mem_cons_of_mem _ ha, hRa⟩

theorem ensureTagIds_tables : ∀ (ns : List String) (db : DB),
    (∃ r : List Tag, (ensureTagIds ns db).2.tags = db.tags ++ r) ∧
    (ensureTagIds ns db).2.post_tags = db.post_tags ∧
    (ensureTagIds ns db).2.posts = db.posts
  | [], db => ⟨⟨[], by simp [ensureTagIds]⟩, rfl, rfl⟩
  | t :: ts, db => by
    cases h : db.tags.find? (fun r => decide (r.name = t)) with
    | some r =>
      obtain ⟨⟨r1, hr1⟩, h2, h3⟩ := ensureTagIds_tables ts db
      exact ⟨⟨r1, by simp only [ensureTagIds, h]; exact hr1⟩,
        by simp only [ensureTagIds, h]; exact h2,
        by simp only [ensureTagIds, h]; exact h3⟩
    | none =>
      obtain ⟨⟨r1, hr1⟩, h2, h3⟩ := ensureTagIds_tables ts
        { db with tags := db.tags ++ [⟨db.nextTagId, t⟩],
                  nextTagId := db.nextTagId + 1 }
      refine ⟨⟨⟨db.nextTagId, t⟩ :: r1, ?_⟩, ?_, ?_⟩
      · simp only [ensureTagIds, h]
        rw [hr1]
        simp
      · simp only [ensureTagIds, h]
        exact h2
      · simp only [ensureTagIds, h]
        exact h3

theorem ensureTagIds_wf : ∀ (ns : List String) (db : DB),
    (db.tags.map Tag.id).Nodup → (db.tags.map Tag.name).Nodup →
    (∀ t ∈ db.tags, t.id < db.nextTagId) →
    ((ensureTagIds ns db).2.tags.map Tag.id).Nodup ∧
    ((ensureTagIds ns db).2.tags.map Tag.name).Nodup ∧
    (∀ t ∈ (ensureTagIds ns db).2.tags, t.id < (ensureTagIds ns db).2.nextTagId)
  | [], db => fun hids hnames hfresh => ⟨hids, hnames, by
      intro t ht
      simpa [ensureTagIds] using hfresh t ht⟩
  | t :: ts, db => by
    intro hids hnames hfresh
    cases h : db.tags.find? (fun r => decide (r.name = t)) with
    | some r =>
      obtain ⟨a, b, c⟩ := ensureTagIds_wf ts db hids hnames hfresh
      exact ⟨by simp only [ensureTagIds, h]; exact a,
        by simp only [ensureTagIds, h]; exact b,
        by simp only [ensureTagIds, h]; exact c⟩
    | none =>
      have hnotin : ∀ r ∈ db.tags, r.name ≠ t := by
        intro r hr
        have := List.find?_eq_none.mp h r hr
        simpa using this
      have hids1 : ((db.tags ++ [(⟨db.nextTagId, t⟩ : Tag)]).map Tag.id).Nodup := by
        rw [List.map_append, List.nodup_append]
        refine ⟨hids, by simp, ?_⟩
        intro x hx
        obtain ⟨tg, htg, rfl⟩ := List.mem_map.mp hx
        have := hfresh tg htg
        simp only [List.map_cons, List.map_nil, List.mem_singleton]
        omega
      have hnames1 : ((db.tags ++ [(⟨db.nextTagId, t⟩ : Tag)]).map Tag.name).Nodup := by
        rw [List.map_append, List.nodup_append]
        refine ⟨hnames, by simp, ?_⟩
        intro x hx
        obtain ⟨tg, htg, rfl⟩ := List.mem_map.mp hx
        simp only [List.map_cons, List.map_nil, List.mem_singleton]
        exact hnotin tg htg
      have hfresh1 : ∀ tg ∈ db.tags ++ [(⟨db.nextTagId, t⟩ : Tag)],
          tg.id < db.nextTagId + 1 := by
        intro tg htg
        rcases List.mem_append.mp htg with hl | hr
        · have := hfresh tg hl
          omega
        · rw [List.mem_singleton.mp hr]
          show db.nextTagId < db.nextTagId + 1
          omega
      obtain ⟨a, b, c⟩ := ensureTagIds_wf ts
        { db with tags := db.tags ++ [⟨db.nextTagId, t⟩],
                  nextTagId := db.nextTagId + 1 } hids1 hnames1 hfresh1
      exact ⟨by simp only [ensureTagIds, h]; exact a,
        by simp only [ensureTagIds, h]; exact b,
        by simp only [ensureTagIds, h]; exact c⟩

theorem ensureTagIds_pairs : ∀ (ns : List String) (db : DB),
    List.Forall₂
      (fun i nm => ∃ t ∈ (ensureTagIds ns db).2.tags, t.id = i ∧ t.name = nm)
      (ensureTagIds ns db).1 ns
  | [], db => by simp [ensureTagIds]
  | t :: ts, db => by
    cases h : db.tags.find? (fun r => decide (r.name = t)) with
    | some r =>
      have hr := List.mem_of_find?_eq_some h
      have hname : r.name = t := by simpa using List.find?_some h
      obtain ⟨r1, hr1⟩ := (ensureTagIds_tables ts db).1
      have htail := ensureTagIds_pairs ts db
      simp only [ensureTagIds, h]
      refine List.Forall₂.cons ⟨r, ?_, rfl, hname⟩ htail
      rw [hr1]
      exact List.mem_append_left _ hr
    | none =>
      obtain ⟨r1, hr1⟩ := (ensureTagIds_tables ts
        { db with tags := db.tags ++ [⟨db.nextTagId, t⟩],
                  nextTagId := db.nextTagId + 1 }).1
      have htail := ensureTagIds_pairs ts
        { db with tags := db.tags ++ [⟨db.nextTagId, t⟩],
                  nextTagId := db.nextTagId + 1 }
      simp only [ensureTagIds, h]
      refine List.Forall₂.cons ⟨⟨db.nextTagId, t⟩, ?_, rfl, rfl⟩ htail
      rw [hr1]
      exact List.mem_append_left _ (List.mem_append_right _ (List.mem_singleton.mpr rfl))

theorem attachTagsToPost_tables : ∀ (ids : List Nat) (db : DB) (pid : Nat),
    (attachTagsToPost pid ids db).tags = db.tags
  | [], db, pid => rfl
  | tid :: ts, db, pid => by
    simp only [attachTagsToPost]
    by_cases h : (pid, tid) ∈ db.post_tags
    · rw [if_pos h]
      exact attachTagsToPost_tables ts db pid
    · rw [if_neg h]
      exact attachTagsToPost_tables ts _ pid

theorem attachTagsToPost_mem : ∀ (ids : List Nat) (db : DB) (pid : Nat)
    (r : Nat × Nat),
    (r ∈ (attachTagsToPost pid ids db).post_tags ↔
      r ∈ db.post_tags ∨ ∃ i ∈ ids, r = (pid, i))
  | [], db, pid, r => by simp [attachTagsToPost]
  | tid :: ts, db, pid, r => by
    simp only [attachTagsToPost]
    by_cases h : (pid, tid) ∈ db.post_tags
    · rw [if_pos h, attachTagsToPost_mem ts db pid r]
      constructor
      · rintro (hin | ⟨i, hi, rfl⟩)
        · exact Or.inl hin
        · exact Or.inr ⟨i, List.mem_cons_of_mem _ hi, rfl⟩
      · rintro (hin | ⟨i, hi, rfl⟩)
        · exact Or.inl hin
        · rcases List.mem_cons.mp hi with rfl | hi'
          · exact Or.inl h
          · exact Or.inr ⟨i, hi', rfl⟩
    · rw [if_neg h, attachTagsToPost_mem ts _ pid r]
      simp only [List.mem_append, List.mem_singleton]
      constructor
      · rintro ((hin | rfl) | ⟨i, hi, rfl⟩)
        · exact Or.inl hin
        · exact Or.inr ⟨tid, List.mem_cons_self _ _, rfl⟩
        · exact Or.inr ⟨i, List.mem_cons_of_mem _ hi, rfl⟩
      · rintro (hin | ⟨i, hi, rfl⟩)
        · exact Or.inl (Or.inl hin)
        · rcases List.mem_cons.mp hi with rfl | hi'
          · exact Or.inl (Or.inr rfl)
          · exact Or.inr ⟨i, hi', rfl⟩

theorem mem_postTagNames {db : DB} {pid : Nat} {n : String} :
    n ∈ postTagNames db pid ↔
      ∃ t ∈ db.tags, (pid, t.id) ∈ db.post_tags ∧ t.name = n := by
  simp only [postTagNames, List.mem_map, List.mem_filter, decide_eq_true_eq]
  constructor
  · rintro ⟨t, ⟨ht, hmem⟩, rfl⟩
    exact ⟨t, ht, hmem, rfl⟩
  · rintro ⟨t, ht, hmem, rfl⟩
    exact ⟨t, ⟨ht, hmem⟩, rfl⟩

/-- Core of the edit route after the effective tag list is determined:
delete-then-ensure-then-attach makes the post's tag-name set exactly the
given list, and the vocabulary only grows. -/
theorem setTags_core (db : DB) (pid : Nat) (ns : List String)
    (hids : (db.tags.map Tag.id).Nodup)
    (hnames : (db.tags.map Tag.name).Nodup)
    (hfresh : ∀ t ∈ db.tags, t.id < db.nextTagId) :
    (∀ n, n ∈ postTagNames
        (attachTagsToPost pid (ensureTagIds ns (deletePostTags db pid)).1
          (ensureTagIds ns (deletePostTags db pid)).2) pid ↔ n ∈ ns) ∧
    (∀ t ∈ db.tags,
      t ∈ (attachTagsToPost pid (ensureTagIds ns (deletePostTags db pid)).1
        (ensureTagIds ns (deletePostTags db pid)).2).tags) := by
  have h1tags : (deletePostTags db pid).tags = db.tags := rfl
  have h1next : (deletePostTags db pid).nextTagId = db.nextTagId := rfl
  obtain ⟨⟨newRows, hpre⟩, hpts2, _⟩ := ensureTagIds_tables ns (deletePostTags db pid)
  obtain ⟨hids2, hnames2, _⟩ := ensureTagIds_wf ns (deletePostTags db pid)
    (by rw [h1tags]; exact hids) (by rw [h1tags]; exact hnames)
    (by rw [h1tags, h1next]; exact hfresh)
  have hpairs := ensureTagIds_pairs ns (deletePostTags db pid)
  have hatags := attachTagsToPost_tables (ensureTagIds ns (deletePostTags db pid)).1
    (ensureTagIds ns (deletePostTags db pid)).2 pid
  constructor
  · intro n
    rw [mem_postTagNames]
    constructor
    · rintro ⟨t, ht, hmem, rfl⟩
      rw [hatags] at ht
      rw [attachTagsToPost_mem] at hmem
      rcases hmem with hold | ⟨i, hi, heq⟩
      · rw [hpts2] at hold
        have := (List.mem_filter.mp hold).2
        simp at this
      · have hti : t.id = i := by
          have := Prod.mk.injEq pid t.id pid i ▸ heq
          simpa using heq
        obtain ⟨nm, hnm, t', ht', hid', hname'⟩ := forall2_mem_left hpairs i hi
        have ht'e : t' = t := List.inj_on_of_nodup_map hids2 ht' ht (by rw [hid', hti])
        rw [← ht'e, hname']
        exact hnm
    · intro hn
      obtain ⟨i, hi, t, ht, hid, hname⟩ := forall2_mem_right hpairs n hn
      refine ⟨t, ?_, ?_, hname⟩
      · rw [hatags]
        exact ht
      · rw [attachTagsToPost_mem]
        exact Or.inr ⟨i, hi, by rw [hid]⟩
  · intro t ht
    rw [hatags, hpre, h1tags]
    exact List.mem_append_left _ ht

/-- C4: editing a post with non-blank tag text makes the post's tag-name
set exactly the parsed tag list of that text, while every tag row that
existed before — including those of detached tags — still exists in the
vocabulary. -/
theorem c4_edit_full_replacement (db : DB) (postId : Nat) (s : String)
    (hwf : DBwf db)
    (hpost : ∃ p ∈ db.posts, p.id = postId)
    (hs : trimWs s ≠ "") :
    ∃ db', editPostTags db postId (some s) = some db' ∧
      (∀ n, n ∈ postTagNames db' postId ↔ n ∈ parseTags s) ∧
      (∀ t ∈ db.tags, t ∈ db'.tags) := by
  obtain ⟨hids, hnames, hfresh, hpts, hposts⟩ := hwf
  obtain ⟨p, hp, hpid⟩ := hpost
  have hfind : (db.posts.find? (fun q => decide (q.id = postId))).isSome :=
    List.find?_isSome.mpr ⟨p, hp, by simp [hpid]⟩
  obtain ⟨post, hfound⟩ := Option.isSome_iff_exists.mp hfind
  have hpostid : post.id = postId := by simpa using List.find?_some hfound
  subst hpostid
  have hcore := setTags_core db post.id (parseTags s) hids hnames hfresh
  refine ⟨_, ?_, hcore.1, hcore.2⟩
  simp only [editPostTags, hfound]
  rw [if_neg hs]

/-- Witness for C4: replacing the tags of post 1 (`cat`, `dog`) with
`#bird` on the concrete database. -/
theorem c4_edit_full_replacement_witness :
    ∃ db', editPostTags exDB 1 (some "#bird") = some db' ∧
      (∀ n, n ∈ postTagNames db' 1 ↔ n ∈ parseTags "#bird") ∧
      (∀ t ∈ exDB.tags, t ∈ db'.tags) :=
  c4_edit_full_replacement exDB 1 "#bird" (by decide) (by decide) (by decide)

theorem canonicalTag_parts {s : String} (h : canonicalTag s = true) :
    ∃ rest, s.data = '#' :: rest ∧
      (∀ c ∈ rest, isWs c = false ∧ foldCase c = c) ∧
      rest.dropWhile (fun c => c = '#') = rest := by
  unfold canonicalTag at h
  cases hd : s.data with
  | nil =>
    rw [hd] at h
    exact absurd h (by simp)
  | cons c rest =>
    rw [hd] at h
    rw [Bool.and_eq_true, Bool.and_eq_true] at h
    obtain ⟨⟨hc, hinner⟩, hall⟩ := h
    have hc' : c = '#' := of_decide_eq_true hc
    subst hc'
    refine ⟨rest, rfl, ?_, ?_⟩
    · intro d hdm
      have hda := List.all_eq_true.mp hall d hdm
      rw [Bool.and_eq_true] at hda
      exact ⟨by simpa using hda.1, of_decide_eq_true hda.2⟩
    · cases rest with
      | nil => rfl
      | cons c2 r2 =>
        have hne : c2 ≠ '#' := by simpa using hinner
        simp [List.dropWhile_cons, hne]

theorem canonical_no_ws {s : String} (h : canonicalTag s = true) :
    s.data ≠ [] ∧ ∀ c ∈ s.data, isWs c = false := by
  obtain ⟨rest, hd, hrest, _⟩ := canonicalTag_parts h
  rw [hd]
  refine ⟨by simp, ?_⟩
  intro c hc
  rcases List.mem_cons.mp hc with rfl | hc'
  · rfl
  · exact (hrest c hc').1

theorem wordsAux_append_ws (w : List Char) :
    ∀ (acc rest : List Char), (∀ c ∈ w, isWs c = false) →
      (acc ≠ [] ∨ w ≠ []) →
      wordsAux (w ++ ' ' :: rest) acc = (acc.reverse ++ w) :: wordsAux rest [] := by
  induction w with
  | nil =>
    intro acc rest _ hne
    have hacc : acc ≠ [] := hne.resolve_right (by simp)
    simp [wordsAux, isWs, hacc]
  | cons c cs ih =>
    intro acc rest h hne
    have hc := h c (List.mem_cons_self _ _)
    simp only [List.cons_append, List.append_eq, wordsAux, hc, Bool.false_eq_true,
      if_false]
    rw [ih (c :: acc) rest (fun d hd => h d (List.mem_cons_of_mem _ hd))
      (Or.inl (by simp))]
    simp

theorem words_single (w : List Char) (hne : w ≠ [])
    (h : ∀ c ∈ w, isWs c = false) : words w = [w] := by
  rw [words, wordsAux_no_ws w [] h]
  simp [hne]

theorem splitWs_joinSpace (names : List String)
    (h : ∀ nm ∈ names, nm.data ≠ [] ∧ ∀ c ∈ nm.data, isWs c = false) :
    splitWs (joinSpace names) = names := by
  induction names with
  | nil => rfl
  | cons x ys ih =>
    cases ys with
    | nil =>
      obtain ⟨hne, hnws⟩ := h x (List.mem_cons_self _ _)
      simp only [joinSpace, splitWs]
      rw [words_single x.data hne hnws]
      rfl
    | cons y ys' =>
      obtain ⟨hne, hnws⟩ := h x (List.mem_cons_self _ _)
      have hrest := ih (fun nm hm => h nm (List.mem_cons_of_mem _ hm))
      simp only [joinSpace] at hrest ⊢
      simp only [splitWs, words, String.data_append]
      have hdata : x.data ++ ((" " : String).data ++
          (joinSpace (y :: ys')).data) =
          x.data ++ ' ' :: (joinSpace (y :: ys')).data := rfl
      rw [List.append_assoc, hdata,
        wordsAux_append_ws x.data [] (joinSpace (y :: ys')).data hnws (Or.inr hne)]
      simp only [List.reverse_nil, List.nil_append, List.map_cons]
      rw [show (⟨x.data⟩ : String) = x from rfl]
      simp only [splitWs, words] at hrest
      rw [hrest]

theorem joinSpace_data_ne (names : List String)
    (hne : names ≠ [])
    (h : ∀ nm ∈ names, nm.data ≠ []) :
    (joinSpace names).data ≠ [] := by
  cases names with
  | nil => exact absurd rfl hne
  | cons x ys =>
    cases ys with
    | nil => exact h x (List.mem_cons_self _ _)
    | cons y ys' =>
      simp only [joinSpace, String.data_append]
      intro hc
      rcases List.append_eq_nil.mp hc with ⟨h1, _⟩
      rcases List.append_eq_nil.mp h1 with ⟨h2, _⟩
      exact h x (List.mem_cons_self _ _) h2

theorem dedupAux_of_nodup {α : Type} [DecidableEq α] :
    ∀ (l seen : List α), l.Nodup → (∀ x ∈ l, x ∉ seen) →
      dedupAux seen l = l
  | [], _, _, _ => rfl
  | x :: xs, seen, hnd, hseen => by
    have hx : x ∉ seen := hseen x (List.mem_cons_self _ _)
    obtain ⟨hxxs, hxs⟩ := List.nodup_cons.mp hnd
    simp only [dedupAux, hx, if_false]
    rw [dedupAux_of_nodup xs (x :: seen) hxs]
    intro y hy
    intro hmem
    rcases List.mem_cons.mp hmem with rfl | hy'
    · exact hxxs hy
    · exact hseen y (List.mem_cons_of_mem _ hy) hy'

theorem dedupFirst_of_nodup {α : Type} [DecidableEq α] (l : List α)
    (h : l.Nodup) : dedupFirst l = l :=
  dedupAux_of_nodup l [] h (by simp)

theorem parseTags_canonical_list (names : List String)
    (hnd : names.Nodup)
    (hc : ∀ nm ∈ names, canonicalTag nm = true) :
    parseTags (joinSpace names) = names := by
  cases hnames : names with
  | nil => rfl
  | cons x ys =>
    rw [← hnames]
    have hprops : ∀ nm ∈ names, nm.data ≠ [] ∧ ∀ c ∈ nm.data, isWs c = false :=
      fun nm hm => canonical_no_ws (hc nm hm)
    have hne : (joinSpace names) ≠ "" := by
      intro he
      exact joinSpace_data_ne names (by rw [hnames]; simp)
        (fun nm hm => (hprops nm hm).1) (congrArg String.data he)
    rw [parseTags, if_neg hne, splitWs_joinSpace names hprops]
    have htrim : names.map trimWs = names := by
      apply List.map_congr_left ?_ |>.trans (List.map_id _)
      intro nm hm
      exact trimWs_no_ws nm.data (hprops nm hm).2
    have hfilter : names.filter (fun t => startsHash t) = names := by
      apply List.filter_eq_self.mpr
      intro nm hm
      obtain ⟨rest, hd, _, _⟩ := canonicalTag_parts (hc nm hm)
      simp [startsHash, hd]
    have hmap2 : names.map (fun t => asciiLower (collapseHash t)) = names := by
      apply List.map_congr_left ?_ |>.trans (List.map_id _)
      intro nm hm
      obtain ⟨rest, hd, hrest, hdrop⟩ := canonicalTag_parts (hc nm hm)
      have hcoll : collapseHash nm = nm := by
        simp only [collapseHash, hd, hdrop]
        rw [← hd]
      have hlower : asciiLower nm = nm := by
        simp only [asciiLower, hd, List.map_cons]
        have hfold : List.map foldCase rest = rest := by
          apply (List.map_congr_left ?_).trans (List.map_id _)
          intro d hdm
          exact (hrest d hdm).2
        rw [hfold, show foldCase '#' = '#' from rfl, ← hd]
      rw [hcoll, hlower]
      rfl
    rw [htrim, hfilter, hmap2]
    exact dedupFirst_of_nodup names hnd

theorem postTagNames_nodup (db : DB) (pid : Nat)
    (hnames : (db.tags.map Tag.name).Nodup) : (postTagNames db pid).Nodup :=
  List.Nodup.sublist ((List.filter_sublist _).map _) hnames

/-- C10: when the submitted tag text of an edit is missing or blank, the
route re-reads the post's existing tags, re-parses and re-attaches them,
so the post's tag-name set after the edit equals its set before the edit
(given the invariant that vocabulary names are canonical, which
`ensureTagIds` maintains for names produced by `parseTags`). -/
theorem c10_blank_edit_preserves_tags (db : DB) (postId : Nat)
    (inp : Option String)
    (hwf : DBwf db)
    (hcanon : ∀ t ∈ db.tags, canonicalTag t.name = true)
    (hpost : ∃ p ∈ db.posts, p.id = postId)
    (hblank : ∀ s, inp = some s → trimWs s = "") :
    ∃ db', editPostTags db postId inp = some db' ∧
      ∀ n, n ∈ postTagNames db' postId ↔ n ∈ postTagNames db postId := by
  obtain ⟨hids, hnames, hfresh, hpts, hposts⟩ := hwf
  obtain ⟨p, hp, hpid⟩ := hpost
  have hfind : (db.posts.find? (fun q => decide (q.id = postId))).isSome :=
    List.find?_isSome.mpr ⟨p, hp, by simp [hpid]⟩
  obtain ⟨post, hfound⟩ := Option.isSome_iff_exists.mp hfind
  have hpostid : post.id = postId := by simpa using List.find?_some hfound
  subst hpostid
  have hptn_nodup : (postTagNames db post.id).Nodup :=
    postTagNames_nodup db post.id hnames
  have hptn_canon : ∀ nm ∈ postTagNames db post.id, canonicalTag nm = true := by
    intro nm hnm
    rw [mem_postTagNames] at hnm
    obtain ⟨t, ht, _, rfl⟩ := hnm
    exact hcanon t ht
  have hround := parseTags_canonical_list (postTagNames db post.id)
    hptn_nodup hptn_canon
  have hcore := setTags_core db post.id
    (parseTags (joinSpace (postTagNames db post.id))) hids hnames hfresh
  have hiff : ∀ n, n ∈ postTagNames
      (attachTagsToPost post.id
        (ensureTagIds (parseTags (joinSpace (postTagNames db post.id)))
          (deletePostTags db post.id)).1
        (ensureTagIds (parseTags (joinSpace (postTagNames db post.id)))
          (deletePostTags db post.id)).2) post.id ↔
      n ∈ postTagNames db post.id := by
    intro n
    rw [hcore.1 n, hround]
  cases inp with
  | none =>
    refine ⟨_, ?_, hiff⟩
    simp only [editPostTags, hfound]
  | some s =>
    have hb := hblank s rfl
    refine ⟨_, ?_, hiff⟩
    simp only [editPostTags, hfound]
    rw [if_pos hb]

/-- Witness for C10: an edit of post 1 with no submitted tag text on the
concrete database keeps its tag set. -/
theorem c10_blank_edit_preserves_tags_witness :
    ∃ db', editPostTags exDB 1 none = some db' ∧
      ∀ n, n ∈ postTagNames db' 1 ↔ n ∈ postTagNames exDB 1 :=
  c10_blank_edit_preserves_tags exDB 1 none (by decide) (by decide) (by decide)
    (fun s h => nomatch h)

theorem toNat_ofNat_valid (n : Nat) (h : n < 0xD800) :
    (Char.ofNat n).toNat = n := by
  rw [Char.ofNat, dif_pos (Or.inl h)]
  simp [Char.ofNatAux, Char.toNat, UInt32.toNat, BitVec.toNat_ofNatLt]

theorem char_toNat_le_of_le {c d : Char} (h : c ≤ d) : c.toNat ≤ d.toNat := by
  rw [Char.le_def, UInt32.le_def, BitVec.le_def] at h
  exact h

theorem foldCase_idem (c : Char) : foldCase (foldCase c) = foldCase c := by
  unfold foldCase
  by_cases h : ('A' ≤ c && c ≤ 'Z') = true
  · rw [if_pos h]
    have h2 := (Bool.and_eq_true _ _).mp h
    have hle : c.toNat ≤ 90 := char_toNat_le_of_le (of_decide_eq_true h2.2)
    have hge : 65 ≤ c.toNat := char_toNat_le_of_le (of_decide_eq_true h2.1)
    have htn : (Char.ofNat (c.toNat + 32)).toNat = c.toNat + 32 :=
      toNat_ofNat_valid _ (by omega)
    have hnot : ¬ ('A' ≤ Char.ofNat (c.toNat + 32) &&
        Char.ofNat (c.toNat + 32) ≤ 'Z') = true := by
      intro hc
      have hz2 : (Char.ofNat (c.toNat + 32)).toNat ≤ (90 : Nat) :=
        char_toNat_le_of_le (of_decide_eq_true ((Bool.and_eq_true _ _).mp hc).2)
      omega
    rw [if_neg hnot]
  · rw [if_neg h, if_neg h]

theorem foldCase_ne_hash {c : Char} (hc : c ≠ '#') : foldCase c ≠ '#' := by
  unfold foldCase
  by_cases h : ('A' ≤ c && c ≤ 'Z') = true
  · rw [if_pos h]
    intro he
    have h2 := (Bool.and_eq_true _ _).mp h
    have hge : 65 ≤ c.toNat := char_toNat_le_of_le (of_decide_eq_true h2.1)
    have hle : c.toNat ≤ 90 := char_toNat_le_of_le (of_decide_eq_true h2.2)
    have htn : (Char.ofNat (c.toNat + 32)).toNat = c.toNat + 32 :=
      toNat_ofNat_valid _ (by omega)
    rw [he] at htn
    have h35 : ('#' : Char).toNat = 35 := rfl
    omega
  · rw [if_neg h]
    exact hc

theorem asciiLower_idem (s : String) : asciiLower (asciiLower s) = asciiLower s := by
  simp only [asciiLower, List.map_map]
  congr 1
  apply List.map_congr_left
  intro c _
  exact foldCase_idem c

theorem dropWhile_head_not {p : Char → Bool} :
    ∀ (l : List Char) (d : Char) (rest : List Char),
      l.dropWhile p = d :: rest → p d = false := by
  intro l
  induction l with
  | nil => intro d rest h; simp at h
  | cons c cs ih =>
    intro d rest h
    rw [List.dropWhile_cons] at h
    by_cases hc : p c = true
    · rw [if_pos hc] at h
      exact ih d rest h
    · rw [if_neg hc] at h
      cases h
      exact Bool.of_not_eq_true hc

theorem likeChars_starts (pre : List Char) :
    ∀ s : List Char, (∀ c ∈ pre, ¬ c = '%' ∧ ¬ c = '_') →
      likeChars (pre ++ ['%']) s = true →
      (s.map foldCase).take pre.length = pre.map foldCase := by
  induction pre with
  | nil => intro s _ _; simp
  | cons p ps ih =>
    intro s hwc hm
    obtain ⟨hp1, hp2⟩ := hwc p (List.mem_cons_self _ _)
    rw [List.cons_append] at hm
    simp only [likeChars] at hm
    rw [if_neg hp1, if_neg hp2] at hm
    cases s with
    | nil => simp at hm
    | cons c s' =>
      simp only [Bool.and_eq_true, decide_eq_true_eq] at hm
      obtain ⟨hfc, hrec⟩ := hm
      simp only [List.map_cons, List.length_cons, List.take_succ_cons]
      rw [ih s' (fun d hd => hwc d (List.mem_cons_of_mem _ hd)) hrec, hfc]

theorem canonical_fold {s : String} (h : canonicalTag s = true) :
    ∀ c ∈ s.data, foldCase c = c := by
  obtain ⟨rest, hd, hrest, _⟩ := canonicalTag_parts h
  rw [hd]
  intro c hc
  rcases List.mem_cons.mp hc with rfl | hc'
  · rfl
  · exact (hrest c hc').2

theorem autocompleteRoute_spec (db : DB) (q : String) :
    (autocompleteRoute db q).length ≤ 10 ∧
    (autocompleteRoute db q).Pairwise (fun a b => b.2 ≤ a.2) ∧
    (∀ pr ∈ autocompleteRoute db q, ∃ t ∈ db.tags, pr.1 = t.name ∧
      pr.2 = usageCount db t.id ∧
      likeChars ((if startsHash (asciiLower q) then asciiLower q
        else ⟨'#' :: (asciiLower q).data⟩).data ++ ['%']) t.name.data = true) := by
  have htot : ∀ a b : String × Nat,
      decide (b.2 ≤ a.2) = true ∨ decide (a.2 ≤ b.2) = true := by
    intro a b
    rcases Nat.le_total b.2 a.2 with h | h
    · exact Or.inl (decide_eq_true h)
    · exact Or.inr (decide_eq_true h)
  have htrans : ∀ a b c : String × Nat, decide (b.2 ≤ a.2) = true →
      decide (c.2 ≤ b.2) = true → decide (c.2 ≤ a.2) = true := by
    intro a b c h1 h2
    exact decide_eq_true (Nat.le_trans (of_decide_eq_true h2) (of_decide_eq_true h1))
  by_cases hq : asciiLower q = ""
  · simp [autocompleteRoute, hq]
  · have hunf : autocompleteRoute db q =
        (sortByLe (fun a b => decide (b.2 ≤ a.2))
          ((db.tags.filter (fun t => likeChars
            ((if startsHash (asciiLower q) then asciiLower q
              else ⟨'#' :: (asciiLower q).data⟩).data ++ ['%']) t.name.data)).map
            (fun t => (t.name, usageCount db t.id)))).take 10 := by
      simp only [autocompleteRoute]
      rw [if_neg hq]
    rw [hunf]
    refine ⟨List.length_take_le _ _, ?_, ?_⟩
    · exact (List.Pairwise.sublist (List.take_sublist _ _)
        (pairwise_sortByLe (fun a b => htot a b) htrans _)).imp
        fun h => of_decide_eq_true h
    · intro pr hpr
      have hmem := (List.take_sublist _ _).subset hpr
      rw [mem_sortByLe] at hmem
      obtain ⟨t, ht, rfl⟩ := List.mem_map.mp hmem
      have htf := List.mem_filter.mp ht
      exact ⟨t, htf.1, rfl, rfl, by simpa using htf.2⟩

theorem usageCount_distinct_posts (db : DB) (tid : Nat)
    (hpts : db.post_tags.Nodup) :
    usageCount db tid =
      (((db.post_tags.filter (fun r => decide (r.2 = tid))).map
        (fun r => r.1)).dedup).length := by
  have hnd : ((db.post_tags.filter (fun r => decide (r.2 = tid))).map
      (fun r => r.1)).Nodup := by
    apply List.Nodup.map_on ?_ (hpts.filter _)
    intro x hx y hy hxy
    have hx2 := (List.mem_filter.mp hx).2
    have hy2 := (List.mem_filter.mp hy).2
    simp only [decide_eq_true_eq] at hx2 hy2
    cases x
    cases y
    simp_all
  rw [List.dedup_eq_self.mpr hnd, List.length_map]
  rfl

theorem acPrefixText_no_hash (input : String) :
    startsHash (acPrefixText input) = false := by
  unfold acPrefixText
  cases hld : ((splitWs (trimWs input)).getLastD "").data.dropWhile
      (fun c => c = '#') with
  | nil => rfl
  | cons d rest =>
    have hdne : d ≠ '#' := by
      simpa using dropWhile_head_not _ d rest hld
    simp only [asciiLower, List.map_cons, startsHash]
    simp [foldCase_ne_hash hdne]

theorem acPrefixText_fold_fixed (input : String) :
    ∀ c ∈ (acPrefixText input).data, foldCase c = c := by
  intro c hc
  unfold acPrefixText at hc
  simp only [asciiLower] at hc
  obtain ⟨d, _, rfl⟩ := List.mem_map.mp hc
  exact foldCase_idem d

/-- Counterexample to C7 as stated: for the raw prefix text `"a_"` the
normalized prefix is `#a_`; the suggestion list contains `#ab`, whose
name does not start with `#a_` — the route matches with SQL `LIKE`, in
which `_` is a single-character wildcard, not a literal. -/
theorem c7_counterexample :
    clientSuggest exDB7 "a_" = [("#ab", 1)] ∧
    acPrefixText "a_" = "a_" ∧
    strStartsWith "#ab" "#a_" = false := by
  decide

/-- C7 (amended: a returned name matches the normalized prefix as a SQL
`LIKE` prefix pattern; only for wildcard-free prefixes does this mean
"starts with"): autocomplete via the client path returns an empty list
for an empty derived prefix, otherwise at most 10 entries, each a
vocabulary tag with its usage count — the number of post-tag rows, i.e.
of distinct posts tagged with it — whose name `LIKE`-matches
`'#' + prefix + '%'`, ranked by usage count descending; when the prefix
contains no `%` or `_`, every returned name starts with the normalized
prefix. -/
theorem c7_autocomplete_amended (db : DB) (input : String)
    (hpts : db.post_tags.Nodup)
    (hcanon : ∀ t ∈ db.tags, canonicalTag t.name = true) :
    (clientSuggest db input).length ≤ 10 ∧
    (acPrefixText input = "" → clientSuggest db input = []) ∧
    (clientSuggest db input).Pairwise (fun a b => b.2 ≤ a.2) ∧
    (∀ pr ∈ clientSuggest db input, ∃ t ∈ db.tags, pr.1 = t.name ∧
      pr.2 = usageCount db t.id ∧
      pr.2 = (((db.post_tags.filter (fun r => decide (r.2 = t.id))).map
        (fun r => r.1)).dedup).length ∧
      likeChars (('#' :: (acPrefixText input).data) ++ ['%']) t.name.data
        = true) ∧
    ((∀ c ∈ (acPrefixText input).data, ¬ c = '%' ∧ ¬ c = '_') →
      ∀ pr ∈ clientSuggest db input,
        strStartsWith pr.1 ⟨'#' :: (acPrefixText input).data⟩ = true) := by
  by_cases h1 : trimWs input = ""
  · refine ⟨?_, ?_, ?_, ?_, ?_⟩ <;> simp [clientSuggest, h1]
  by_cases h2 : acPrefixText input = ""
  · refine ⟨?_, ?_, ?_, ?_, ?_⟩ <;> simp [clientSuggest, h1, h2]
  have hcl : clientSuggest db input = autocompleteRoute db (acPrefixText input) := by
    simp [clientSuggest, h1, h2]
  have hq : asciiLower (acPrefixText input) = acPrefixText input := by
    unfold acPrefixText
    exact asciiLower_idem _
  have hsh : startsHash (asciiLower (acPrefixText input)) = false := by
    rw [hq]
    exact acPrefixText_no_hash input
  have hnorm : (if startsHash (asciiLower (acPrefixText input)) then
      asciiLower (acPrefixText input)
      else ⟨'#' :: (asciiLower (acPrefixText input)).data⟩) =
      (⟨'#' :: (acPrefixText input).data⟩ : String) := by
    rw [hq] at hsh ⊢
    simp [hsh]
  obtain ⟨hlen, hpw, hmem⟩ := autocompleteRoute_spec db (acPrefixText input)
  rw [hnorm] at hmem
  have hmem' : ∀ pr ∈ clientSuggest db input, ∃ t ∈ db.tags, pr.1 = t.name ∧
      pr.2 = usageCount db t.id ∧
      pr.2 = (((db.post_tags.filter (fun r => decide (r.2 = t.id))).map
        (fun r => r.1)).dedup).length ∧
      likeChars (('#' :: (acPrefixText input).data) ++ ['%']) t.name.data
        = true := by
    intro pr hpr
    rw [hcl] at hpr
    obtain ⟨t, ht, he1, he2, he3⟩ := hmem pr hpr
    exact ⟨t, ht, he1, he2, he2 ▸ usageCount_distinct_posts db t.id hpts, he3⟩
  refine ⟨by rw [hcl]; exact hlen, fun hc => absurd hc h2, by rw [hcl]; exact hpw,
    hmem', ?_⟩
  intro hwc pr hpr
  obtain ⟨t, ht, he1, _, _, hlike⟩ := hmem' pr hpr
  have hwc' : ∀ c ∈ '#' :: (acPrefixText input).data, ¬ c = '%' ∧ ¬ c = '_' := by
    intro c hc
    rcases List.mem_cons.mp hc with rfl | hc'
    · exact ⟨by decide, by decide⟩
    · exact hwc c hc'
  have hstarts := likeChars_starts ('#' :: (acPrefixText input).data)
    t.name.data hwc' hlike
  have hnfix : List.map foldCase t.name.data = t.name.data := by
    apply (List.map_congr_left ?_).trans (List.map_id _)
    intro c hc
    exact canonical_fold (hcanon t ht) c hc
  have hpfix : List.map foldCase ('#' :: (acPrefixText input).data) =
      '#' :: (acPrefixText input).data := by
    simp only [List.map_cons]
    rw [show foldCase '#' = '#' from rfl]
    congr 1
    apply (List.map_congr_left ?_).trans (List.map_id _)
    intro c hc
    exact acPrefixText_fold_fixed input c hc
  rw [hnfix, hpfix] at hstarts
  rw [he1, strStartsWith]
  exact decide_eq_true hstarts

/-- Witness for the amended C7 on the concrete database with the typed
prefix `"ca"`. -/
theorem c7_autocomplete_amended_witness :
    (clientSuggest exDB "ca").length ≤ 10 ∧
    (acPrefixText "ca" = "" → clientSuggest exDB "ca" = []) ∧
    (clientSuggest exDB "ca").Pairwise (fun a b => b.2 ≤ a.2) ∧
    (∀ pr ∈ clientSuggest exDB "ca", ∃ t ∈ exDB.tags, pr.1 = t.name ∧
      pr.2 = usageCount exDB t.id ∧
      pr.2 = (((exDB.post_tags.filter (fun r => decide (r.2 = t.id))).map
        (fun r => r.1)).dedup).length ∧
      likeChars (('#' :: (acPrefixText "ca").data) ++ ['%']) t.name.data
        = true) ∧
    ((∀ c ∈ (acPrefixText "ca").data, ¬ c = '%' ∧ ¬ c = '_') →
      ∀ pr ∈ clientSuggest exDB "ca",
        strStartsWith pr.1 ⟨'#' :: (acPrefixText "ca").data⟩ = true) :=
  c7_autocomplete_amended exDB "ca" (by decide) (by decide)

